import Mathlib

/-!
Verification of the consecutive-ones routine (src/constructs/examples/consecutive-ones.cpp).

The C++ file defines two functions on a vector of ints:
- getSegments: one linear scan collecting the maximal runs of 1-valued elements
  as half-open index pairs (s_start, s_end);
- longestOnes: a segment-pairwise nested loop computing the length of the longest
  contiguous window containing at most k zero-valued elements.

Both are embedded below as executable Lean functions (loops become structural
recursions on an explicit fuel that mirrors the loop bound; C++ ints become Int,
indices become Nat).  Spec-level notions (window zero count, the maximum feasible
window length, maximal 1-runs, and the sliding-window algorithm of the design
document) are defined separately and related to the code by the theorems at the
end of the file.
-/

namespace ConsecutiveOnes

/-- Embedded scan loop of getSegments.  State: remaining input, current index i,
the wait_start flag, and s_start.  The base case performs the trailing push
that the C++ code does after the loop when wait_start is false. -/
def getSegmentsGo : List Int → Nat → Bool → Nat → List (Nat × Nat)
  | [], i, waitStart, sStart => if waitStart then [] else [(sStart, i)]
  | x :: rest, i, waitStart, sStart =>
    let ws1 : Bool := if waitStart = true ∧ x = 1 then false else waitStart
    let ss1 : Nat := if waitStart = true ∧ x = 1 then i else sStart
    if ws1 = false ∧ x = 0 then (ss1, i) :: getSegmentsGo rest (i+1) true ss1
    else getSegmentsGo rest (i+1) ws1 ss1

/-- Embedding of C++ getSegments: scan from index 0 with wait_start = true. -/
def getSegments (nums : List Int) : List (Nat × Nat) :=
  getSegmentsGo nums 0 true 0

/-- Index access segs[t] of the C++ code (always in range where the code uses it). -/
def segAt (segs : List (Nat × Nat)) (t : Nat) : Nat × Nat :=
  segs.getD t (0, 0)

/-- Embedded inner loop of longestOnes (the loop over j).  fuel = nSegs - j at
entry, so fuel = 0 exactly when the guard j < nSegs fails.  Returns
(breakInMiddle, j at exit, kRemaining at exit). -/
def innerGo (segs : List (Nat × Nat)) : Nat → Nat → Int → Bool × Nat × Int
  | 0, j, kRem => (false, j, kRem)
  | fuel+1, j, kRem =>
    if ((segAt segs j).1 : Int) - ((segAt segs (j-1)).2 : Int) ≤ kRem then
      innerGo segs fuel (j+1) (kRem - (((segAt segs j).1 : Int) - ((segAt segs (j-1)).2 : Int)))
    else (true, j, kRem)

/-- The candidate value max-ed into maxOnes by one iteration i of the outer loop
of longestOnes: the break-case candidate when the inner loop stops early, and
the border-case candidate (with the i = 0 asymmetry of the source) otherwise. -/
def candidate (segs : List (Nat × Nat)) (nSegs nNums : Nat) (k : Int) (i : Nat) : Int :=
  match innerGo segs (nSegs - (i+1)) (i+1) k with
  | (true, j, kRem) => ((segAt segs (j-1)).2 : Int) - ((segAt segs i).1 : Int) + kRem
  | (false, _, kRem) =>
    let border : Int :=
      ((nNums : Int) - ((segAt segs (nSegs-1)).2 : Int)) +
        (if i = 0 then ((segAt segs 0).1 : Int)
         else ((segAt segs i).1 : Int) - ((segAt segs (i-1)).2 : Int))
    ((segAt segs (nSegs-1)).2 : Int) - ((segAt segs i).1 : Int) + min border kRem

/-- Embedded outer loop of longestOnes (the loop over i), with fuel = nSegs - i. -/
def outerGo (segs : List (Nat × Nat)) (nSegs nNums : Nat) (k : Int) :
    Nat → Nat → Int → Int
  | 0, _, maxOnes => maxOnes
  | fuel+1, i, maxOnes =>
    outerGo segs nSegs nNums k fuel (i+1) (max maxOnes (candidate segs nSegs nNums k i))

/-- Embedding of C++ longestOnes: maxOnes starts at min(nNums, k) and every
outer-loop iteration maxes in its candidate. -/
def longestOnes (nums : List Int) (k : Int) : Int :=
  outerGo (getSegments nums) (getSegments nums).length nums.length k
    (getSegments nums).length 0 (min (nums.length : Int) k)

/-- A sequence is binary when every element is 0 or 1. -/
def Binary (nums : List Int) : Prop := ∀ x ∈ nums, x = 0 ∨ x = 1

instance (nums : List Int) : Decidable (Binary nums) := by
  unfold Binary
  infer_instance

/-- The contiguous window [a, b) of a sequence. -/
def window (nums : List Int) (a b : Nat) : List Int :=
  (nums.drop a).take (b - a)

/-- Number of zero-valued elements in the window [a, b). -/
def zerosIn (nums : List Int) (a b : Nat) : Nat :=
  (window nums a b).count 0

/-- Maximum length of a window [a, b) with b ≤ e containing at most k zeros. -/
def specMaxUpTo (nums : List Int) (k : Int) (e : Nat) : Nat :=
  ((Finset.range (e+1)) ×ˢ (Finset.range (e+1))).sup
    (fun p => if (zerosIn nums p.1 p.2 : Int) ≤ k then p.2 - p.1 else 0)

/-- Spec-level contract quantity: the maximum length of a contiguous window of
the sequence containing at most k zero-valued elements. -/
def specMaxWindow (nums : List Int) (k : Int) : Nat :=
  specMaxUpTo nums k nums.length

/-- Spec-level notion of a maximal run of 1-valued elements: a half-open
interval [s, e) with s < e ≤ n, all ones inside, bordered by a sequence end or
a zero on both sides. -/
def isMaxRun (nums : List Int) (s e : Nat) : Prop :=
  s < e ∧ e ≤ nums.length ∧ (∀ i, i < e → s ≤ i → nums.getD i 0 = 1) ∧
    (s = 0 ∨ nums.getD (s-1) 0 = 0) ∧ (e = nums.length ∨ nums.getD e 0 = 0)

instance (nums : List Int) (s e : Nat) : Decidable (isMaxRun nums s e) := by
  unfold isMaxRun; infer_instance

/-- Spec-level length of the longest maximal run of 1-valued elements. -/
def longestMaxRun (nums : List Int) : Nat :=
  ((Finset.range (nums.length+1)) ×ˢ (Finset.range (nums.length+1))).sup
    (fun p => if isMaxRun nums p.1 p.2 then p.2 - p.1 else 0)

/-- Modelled from the spec (§4.2): the shrink step of the two-pointer sweep;
while the zero count exceeds k, advance start, decrementing the count when the
discarded element is a zero.  fuel bounds the number of steps (end - start). -/
def shrinkGo (nums : List Int) (k : Int) : Nat → Nat → Int → Nat × Int
  | 0, start, zeros => (start, zeros)
  | fuel+1, start, zeros =>
    if k < zeros then
      shrinkGo nums k fuel (start+1) (zeros - (if nums.getD start 0 = 0 then 1 else 0))
    else (start, zeros)

/-- Modelled from the spec (§4.2): advance the window end over the remaining
input one element at a time, include the new element's zero contribution,
shrink from the left while over budget, and record end - start. -/
def slideGo (nums : List Int) (k : Int) : List Int → Nat → Nat → Int → Nat → Nat
  | [], _, _, _, best => best
  | x :: rest, e, start, zeros, best =>
    let zeros1 : Int := zeros + (if x = 0 then 1 else 0)
    match shrinkGo nums k (e + 1 - start) start zeros1 with
    | (start1, zeros2) =>
      slideGo nums k rest (e+1) start1 zeros2 (max best (e + 1 - start1))

/-- Modelled from the spec (§4.2): the linear two-pointer sliding-window
algorithm, started with both pointers at 0, zero count 0 and best 0. -/
def slidingWindow (nums : List Int) (k : Int) : Nat :=
  slideGo nums k nums 0 0 0 0

/-! ### Window zero-count lemmas -/

theorem window_length (nums : List Int) (a b : Nat) :
    (window nums a b).length = min (b - a) (nums.length - a) := by
  simp [window]

theorem window_getElem (nums : List Int) (a b idx : Nat)
    (h : idx < (window nums a b).length) :
    (window nums a b)[idx] = nums.getD (a + idx) 0 := by
  have h1 : idx < (nums.drop a).length := by
    simp [window_length] at h
    simp
    omega
  have h2 : a + idx < nums.length := by
    simp at h1; omega
  unfold window
  rw [List.getElem_take, List.getElem_drop, List.getD_eq_getElem nums 0 h2]

theorem zerosIn_add (nums : List Int) {a b c : Nat} (hab : a ≤ b) (hbc : b ≤ c) :
    zerosIn nums a c = zerosIn nums a b + zerosIn nums b c := by
  unfold zerosIn window
  have h1 : c - a = (b - a) + (c - b) := by omega
  rw [h1, List.take_add, List.count_append, List.drop_drop]
  have h2 : a + (b - a) = b := by omega
  rw [h2]

theorem zerosIn_le (nums : List Int) (a b : Nat) : zerosIn nums a b ≤ b - a := by
  calc zerosIn nums a b ≤ (window nums a b).length := List.count_le_length 0 _
    _ ≤ b - a := by rw [window_length]; omega

theorem zerosIn_self (nums : List Int) (a : Nat) : zerosIn nums a a = 0 := by
  simp [zerosIn, window]

theorem zerosIn_eq_zero_of_ones (nums : List Int) {a b : Nat}
    (h : ∀ i, a ≤ i → i < b → nums.getD i 0 = 1) : zerosIn nums a b = 0 := by
  apply List.count_eq_zero.mpr
  intro hmem
  obtain ⟨idx, hidx, heq⟩ := List.getElem_of_mem hmem
  rw [window_getElem nums a b idx hidx] at heq
  have hib : a + idx < b := by
    have := window_length nums a b
    omega
  have := h (a + idx) (by omega) hib
  omega

theorem zerosIn_eq_of_zeros (nums : List Int) {a b : Nat} (hab : a ≤ b)
    (hb : b ≤ nums.length) (h : ∀ i, a ≤ i → i < b → nums.getD i 0 = 0) :
    zerosIn nums a b = b - a := by
  have hlen : (window nums a b).length = b - a := by rw [window_length]; omega
  calc zerosIn nums a b = (window nums a b).length := by
        apply List.count_eq_length.mpr
        intro y hy
        obtain ⟨idx, hidx, heq⟩ := List.getElem_of_mem hy
        rw [window_getElem nums a b idx hidx] at heq
        have hib : a + idx < b := by
          have := window_length nums a b
          omega
        rw [← heq, h (a + idx) (by omega) hib]
    _ = b - a := hlen

theorem zerosIn_single (nums : List Int) {e : Nat} (h : e < nums.length) :
    zerosIn nums e (e+1) = if nums.getD e 0 = 0 then 1 else 0 := by
  have hw : window nums e (e+1) = [nums[e]] := by
    unfold window
    have h1 : e + 1 - e = 1 := by omega
    rw [h1, ← List.getElem_cons_drop nums e h]
    rfl
  unfold zerosIn
  rw [hw, List.getD_eq_getElem nums 0 h]
  by_cases hx : nums[e] = 0
  · simp [hx]
  · simp [List.count_cons, hx]

theorem zerosIn_full (nums : List Int) : zerosIn nums 0 nums.length = nums.count 0 := by
  simp [zerosIn, window]

theorem zerosIn_reverse (nums : List Int) {a b : Nat} (hab : a ≤ b) (hb : b ≤ nums.length) :
    zerosIn nums.reverse (nums.length - b) (nums.length - a) = zerosIn nums a b := by
  unfold zerosIn window
  have h1 : nums.length - a - (nums.length - b) = b - a := by omega
  rw [h1, List.drop_reverse, List.take_reverse, List.count_reverse]
  have h2 : nums.length - (nums.length - b) = b := by omega
  rw [h2]
  have h3 : (nums.take b).length = b := by
    rw [List.length_take]; omega
  rw [h3, List.drop_take]
  have h4 : b - (b - (b - a)) = b - a := by omega
  have h5 : b - (b - a) = a := by omega
  rw [h4, h5]

/-! ### Lemmas about the spec-level maximum window length -/

theorem le_specMaxUpTo (nums : List Int) (k : Int) {a b e : Nat} (hab : a ≤ b)
    (hbe : b ≤ e) (hfeas : (zerosIn nums a b : Int) ≤ k) :
    b - a ≤ specMaxUpTo nums k e := by
  have hmem : (a, b) ∈ Finset.range (e+1) ×ˢ Finset.range (e+1) := by
    rw [Finset.mem_product]
    constructor <;> (rw [Finset.mem_range]; omega)
  have hle := Finset.le_sup
    (f := fun p : Nat × Nat => if (zerosIn nums p.1 p.2 : Int) ≤ k then p.2 - p.1 else 0) hmem
  simpa [hfeas] using hle

theorem specMaxUpTo_le (nums : List Int) (k : Int) {e M : Nat}
    (h : ∀ a b, a ≤ b → b ≤ e → (zerosIn nums a b : Int) ≤ k → b - a ≤ M) :
    specMaxUpTo nums k e ≤ M := by
  apply Finset.sup_le
  intro p hp
  rw [Finset.mem_product, Finset.mem_range, Finset.mem_range] at hp
  by_cases hfeas : (zerosIn nums p.1 p.2 : Int) ≤ k
  · simp only [hfeas, if_true]
    by_cases hab : p.1 ≤ p.2
    · exact h p.1 p.2 hab (by omega) hfeas
    · omega
  · simp [hfeas]

theorem specMaxUpTo_attained (nums : List Int) (k : Int) (e : Nat) (hk : 0 ≤ k) :
    ∃ a b, a ≤ b ∧ b ≤ e ∧ (zerosIn nums a b : Int) ≤ k ∧
      b - a = specMaxUpTo nums k e := by
  obtain ⟨p, hp, hsup⟩ := Finset.exists_mem_eq_sup
    (Finset.range (e+1) ×ˢ Finset.range (e+1))
    (by exact ⟨(0, 0), by rw [Finset.mem_product]; constructor <;> simp⟩)
    (fun p : Nat × Nat => if (zerosIn nums p.1 p.2 : Int) ≤ k then p.2 - p.1 else 0)
  rw [Finset.mem_product, Finset.mem_range, Finset.mem_range] at hp
  by_cases hz : specMaxUpTo nums k e = 0
  · refine ⟨0, 0, le_refl 0, by omega, ?_, by omega⟩
    rw [zerosIn_self]
    exact_mod_cast hk
  · have hsup' : specMaxUpTo nums k e =
        if (zerosIn nums p.1 p.2 : Int) ≤ k then p.2 - p.1 else 0 := hsup
    by_cases hfeas : (zerosIn nums p.1 p.2 : Int) ≤ k
    · simp only [hfeas, if_true] at hsup'
      exact ⟨p.1, p.2, by omega, by omega, hfeas, hsup'.symm⟩
    · simp only [hfeas, if_false] at hsup'
      exact absurd hsup' hz

theorem le_specMaxWindow (nums : List Int) (k : Int) {a b : Nat} (hab : a ≤ b)
    (hb : b ≤ nums.length) (hfeas : (zerosIn nums a b : Int) ≤ k) :
    b - a ≤ specMaxWindow nums k :=
  le_specMaxUpTo nums k hab hb hfeas

theorem specMaxUpTo_mono_e (nums : List Int) (k : Int) {e e' : Nat} (h : e ≤ e') :
    specMaxUpTo nums k e ≤ specMaxUpTo nums k e' := by
  apply Finset.sup_le
  intro p hp
  rw [Finset.mem_product, Finset.mem_range, Finset.mem_range] at hp
  by_cases hfeas : (zerosIn nums p.1 p.2 : Int) ≤ k
  · simp only [hfeas, if_true]
    by_cases hab : p.1 ≤ p.2
    · exact le_specMaxUpTo nums k hab (by omega) hfeas
    · omega
  · simp [hfeas]

/-! ### Structural characterization of getSegments -/

/-- The list segs consists of the maximal 1-runs of nums located at positions
≥ p: only zeros between p and the first run, between consecutive runs (each run
ends at a zero or at the end of the sequence), and after the last run. -/
def SegsFrom (nums : List Int) : Nat → List (Nat × Nat) → Prop
  | p, [] => ∀ i, p ≤ i → i < nums.length → nums.getD i 0 = 0
  | p, (s, e) :: rest =>
      p ≤ s ∧ s < e ∧ e ≤ nums.length ∧
      (∀ i, p ≤ i → i < s → nums.getD i 0 = 0) ∧
      (∀ i, s ≤ i → i < e → nums.getD i 0 = 1) ∧
      ((e = nums.length ∧ rest = []) ∨
        (e < nums.length ∧ nums.getD e 0 = 0 ∧ SegsFrom nums (e+1) rest))

theorem SegsFrom_anchor (nums : List Int) {p : Nat} {segs : List (Nat × Nat)}
    (h : SegsFrom nums (p+1) segs) (hp : nums.getD p 0 = 0) : SegsFrom nums p segs := by
  match segs with
  | [] =>
    intro i hpi hilen
    rcases Nat.eq_or_lt_of_le hpi with heq | hlt
    · rw [← heq]; exact hp
    · exact h i hlt hilen
  | (s, e) :: rest =>
    obtain ⟨hps, hse, hen, hzb, hones, hor⟩ := h
    refine ⟨by omega, hse, hen, ?_, hones, hor⟩
    intro i hpi his
    rcases Nat.eq_or_lt_of_le hpi with heq | hlt
    · rw [← heq]; exact hp
    · exact hzb i hlt his

theorem binary_getD (nums : List Int) (hbin : Binary nums) {i : Nat}
    (h : i < nums.length) : nums.getD i 0 = 0 ∨ nums.getD i 0 = 1 := by
  rw [List.getD_eq_getElem nums 0 h]
  exact hbin _ (List.getElem_mem h)

theorem drop_cons_facts (nums : List Int) {i : Nat} {x : Int} {rest : List Int}
    (h : nums.drop i = x :: rest) :
    i < nums.length ∧ nums.getD i 0 = x ∧ nums.drop (i+1) = rest := by
  have hlen : (nums.drop i).length = nums.length - i := List.length_drop i nums
  rw [h] at hlen
  simp at hlen
  have hilen : i < nums.length := by omega
  have h0 : nums[i]? = some x := by
    have h1 := List.getElem?_drop nums i 0
    rw [h] at h1
    simpa using h1.symm
  have hdrop : nums.drop (i+1) = rest := by
    have h2 : (nums.drop i).drop 1 = nums.drop (i + 1) := by
      rw [List.drop_drop]
    rw [h] at h2
    simpa using h2.symm
  refine ⟨hilen, ?_, hdrop⟩
  rw [List.getD_eq_getElem?_getD, h0]
  rfl

theorem getSegmentsGo_spec (nums : List Int) (hbin : Binary nums) :
    ∀ rest : List Int, ∀ i ss : Nat, nums.drop i = rest → i ≤ nums.length →
      SegsFrom nums i (getSegmentsGo rest i true ss) ∧
      (ss < i → (∀ t, ss ≤ t → t < i → nums.getD t 0 = 1) →
        SegsFrom nums ss (getSegmentsGo rest i false ss)) := by
  intro rest
  induction rest with
  | nil =>
    intro i ss hdrop hilen
    have hle : nums.length ≤ i := by
      have := List.length_drop i nums
      rw [hdrop] at this
      simp at this
      omega
    constructor
    · show SegsFrom nums i (if true then [] else [(ss, i)])
      rw [if_pos rfl]
      intro t hti htlen
      omega
    · intro hss hones
      show SegsFrom nums ss (if false = true then [] else [(ss, i)])
      rw [if_neg (by simp)]
      exact ⟨le_refl ss, by omega, by omega, by omega, fun t hst hti => hones t hst hti,
        Or.inl ⟨by omega, rfl⟩⟩
  | cons x rest ih =>
    intro i ss hdrop hilen
    obtain ⟨hilt, hgetD, hdrop'⟩ := drop_cons_facts nums hdrop
    have hx01 : x = 0 ∨ x = 1 := by
      rcases binary_getD nums hbin hilt with h0 | h1
      · left; omega
      · right; omega
    constructor
    · -- wait_start = true state
      by_cases hx : x = 1
      · -- start a new run at i
        have hstep : getSegmentsGo (x :: rest) i true ss =
            getSegmentsGo rest (i+1) false i := by
          simp only [getSegmentsGo]
          norm_num [hx]
        rw [hstep]
        exact (ih (i+1) i hdrop' (by omega)).2 (by omega)
          (fun t hst hti => by
            have : t = i := by omega
            rw [this, hgetD, hx])
      · -- remain waiting
        have hx0 : x = 0 := by omega
        have hstep : getSegmentsGo (x :: rest) i true ss =
            getSegmentsGo rest (i+1) true ss := by
          simp only [getSegmentsGo]
          norm_num [hx0]
        rw [hstep]
        exact SegsFrom_anchor nums ((ih (i+1) ss hdrop' (by omega)).1)
          (by rw [hgetD, hx0])
    · -- wait_start = false state: a run is open from ss
      intro hss hones
      by_cases hx : x = 0
      · -- close the run at i
        have hstep : getSegmentsGo (x :: rest) i false ss =
            (ss, i) :: getSegmentsGo rest (i+1) true ss := by
          simp only [getSegmentsGo]
          norm_num [hx]
        rw [hstep]
        exact ⟨le_refl ss, hss, by omega, by omega, fun t hst hti => hones t hst hti,
          Or.inr ⟨hilt, by rw [hgetD, hx], (ih (i+1) ss hdrop' (by omega)).1⟩⟩
      · -- the run continues through i
        have hx1 : x = 1 := by omega
        have hstep : getSegmentsGo (x :: rest) i false ss =
            getSegmentsGo rest (i+1) false ss := by
          simp only [getSegmentsGo]
          norm_num [hx1]
        rw [hstep]
        exact (ih (i+1) ss hdrop' (by omega)).2 (by omega)
          (fun t hst hti => by
            rcases Nat.lt_or_ge t i with hti' | hti'
            · exact hones t hst hti'
            · have : t = i := by omega
              rw [this, hgetD, hx1])

theorem getSegments_SegsFrom (nums : List Int) (hbin : Binary nums) :
    SegsFrom nums 0 (getSegments nums) := by
  have := (getSegmentsGo_spec nums hbin nums 0 0 (by simp) (by omega)).1
  exact this

/-! ### Indexed facts about a valid segment decomposition -/

theorem segAt_cons_succ (a : Nat × Nat) (l : List (Nat × Nat)) (t : Nat) :
    segAt (a :: l) (t+1) = segAt l t := rfl

theorem segAt_cons_zero (a : Nat × Nat) (l : List (Nat × Nat)) :
    segAt (a :: l) 0 = a := rfl

theorem SegsFrom_start_lt_end (nums : List Int) :
    ∀ segs : List (Nat × Nat), ∀ p t : Nat, SegsFrom nums p segs → t < segs.length →
      (segAt segs t).1 < (segAt segs t).2 := by
  intro segs
  induction segs with
  | nil => intro p t h ht; simp at ht
  | cons se rest ih =>
    intro p t h ht
    obtain ⟨s, e⟩ := se
    obtain ⟨hps, hse, hen, hzb, hones, hor⟩ := h
    match t with
    | 0 => exact hse
    | t+1 =>
      rcases hor with ⟨_, hrest⟩ | ⟨_, _, hrec⟩
      · subst hrest; simp at ht
      · exact ih (e+1) t hrec (by simpa using ht)

theorem SegsFrom_end_le (nums : List Int) :
    ∀ segs : List (Nat × Nat), ∀ p t : Nat, SegsFrom nums p segs → t < segs.length →
      (segAt segs t).2 ≤ nums.length := by
  intro segs
  induction segs with
  | nil => intro p t h ht; simp at ht
  | cons se rest ih =>
    intro p t h ht
    obtain ⟨s, e⟩ := se
    obtain ⟨hps, hse, hen, hzb, hones, hor⟩ := h
    match t with
    | 0 => exact hen
    | t+1 =>
      rcases hor with ⟨_, hrest⟩ | ⟨_, _, hrec⟩
      · subst hrest; simp at ht
      · exact ih (e+1) t hrec (by simpa using ht)

theorem SegsFrom_ones (nums : List Int) :
    ∀ segs : List (Nat × Nat), ∀ p t : Nat, SegsFrom nums p segs → t < segs.length →
      ∀ i, (segAt segs t).1 ≤ i → i < (segAt segs t).2 → nums.getD i 0 = 1 := by
  intro segs
  induction segs with
  | nil => intro p t h ht; simp at ht
  | cons se rest ih =>
    intro p t h ht
    obtain ⟨s, e⟩ := se
    obtain ⟨hps, hse, hen, hzb, hones, hor⟩ := h
    match t with
    | 0 => exact fun i hsi hie => hones i hsi hie
    | t+1 =>
      rcases hor with ⟨_, hrest⟩ | ⟨_, _, hrec⟩
      · subst hrest; simp at ht
      · exact ih (e+1) t hrec (by simpa using ht)

theorem SegsFrom_anchor_le (nums : List Int) :
    ∀ segs : List (Nat × Nat), ∀ p t : Nat, SegsFrom nums p segs → t < segs.length →
      p ≤ (segAt segs t).1 := by
  intro segs
  induction segs with
  | nil => intro p t h ht; simp at ht
  | cons se rest ih =>
    intro p t h ht
    obtain ⟨s, e⟩ := se
    obtain ⟨hps, hse, hen, hzb, hones, hor⟩ := h
    match t with
    | 0 => exact hps
    | t+1 =>
      rcases hor with ⟨_, hrest⟩ | ⟨_, _, hrec⟩
      · subst hrest; simp at ht
      · have := ih (e+1) t hrec (by simpa using ht)
        rw [segAt_cons_succ]
        omega

theorem SegsFrom_sep (nums : List Int) :
    ∀ segs : List (Nat × Nat), ∀ p t : Nat, SegsFrom nums p segs → t + 1 < segs.length →
      (segAt segs t).2 < (segAt segs (t+1)).1 := by
  intro segs
  induction segs with
  | nil => intro p t h ht; simp at ht
  | cons se rest ih =>
    intro p t h ht
    obtain ⟨s, e⟩ := se
    obtain ⟨hps, hse, hen, hzb, hones, hor⟩ := h
    rcases hor with ⟨_, hrest⟩ | ⟨hlt, hze, hrec⟩
    · subst hrest; simp at ht
    · match t with
      | 0 =>
        have := SegsFrom_anchor_le nums rest (e+1) 0 hrec (by simpa using ht)
        rw [segAt_cons_zero, segAt_cons_succ]
        omega
      | t+1 =>
        exact ih (e+1) t hrec (by simpa using ht)

theorem SegsFrom_outside_zero (nums : List Int) :
    ∀ segs : List (Nat × Nat), ∀ p i : Nat, SegsFrom nums p segs → p ≤ i →
      i < nums.length →
      (∀ t, t < segs.length → (segAt segs t).1 ≤ i → ¬ i < (segAt segs t).2) →
      nums.getD i 0 = 0 := by
  intro segs
  induction segs with
  | nil => intro p i h hpi hlen _; exact h i hpi hlen
  | cons se rest ih =>
    intro p i h hpi hlen hno
    obtain ⟨s, e⟩ := se
    obtain ⟨hps, hse, hen, hzb, hones, hor⟩ := h
    rcases Nat.lt_or_ge i s with his | hsi
    · exact hzb i hpi his
    · rcases Nat.lt_or_ge i e with hie | hei
      · exact absurd hie (hno 0 (by simp) hsi)
      · rcases hor with ⟨he, _⟩ | ⟨hlt, hze, hrec⟩
        · omega
        · rcases Nat.eq_or_lt_of_le hei with heq | hgt
          · rw [← heq]; exact hze
          · exact ih (e+1) i hrec (by omega) hlen
              (fun t ht h1 => hno (t+1) (by simpa using ht) h1)

theorem SegsFrom_mem_seg (nums : List Int) {segs : List (Nat × Nat)} {p i : Nat}
    (h : SegsFrom nums p segs) (hpi : p ≤ i) (hlen : i < nums.length)
    (h1 : nums.getD i 0 = 1) :
    ∃ t, t < segs.length ∧ (segAt segs t).1 ≤ i ∧ i < (segAt segs t).2 := by
  by_contra hno
  push_neg at hno
  have := SegsFrom_outside_zero nums segs p i h hpi hlen
    (fun t ht h1 => by have := hno t ht h1; omega)
  omega

theorem SegsFrom_E_lt_S (nums : List Int) {segs : List (Nat × Nat)} {p : Nat}
    (h : SegsFrom nums p segs) :
    ∀ t t' : Nat, t < t' → t' < segs.length → (segAt segs t).2 < (segAt segs t').1 := by
  intro t t'
  induction t' with
  | zero => omega
  | succ u ihu =>
    intro htt' ht'
    rcases Nat.lt_or_ge t u with htu | htu
    · have h1 := ihu htu (by omega)
      have h2 := SegsFrom_start_lt_end nums segs p u h (by omega)
      have h3 := SegsFrom_sep nums segs p u h ht'
      omega
    · have : t = u := by omega
      subst this
      exact SegsFrom_sep nums segs p t h ht'

theorem SegsFrom_E_mono (nums : List Int) {segs : List (Nat × Nat)} {p : Nat}
    (h : SegsFrom nums p segs) {t u : Nat} (htu : t ≤ u) (hu : u < segs.length) :
    (segAt segs t).2 ≤ (segAt segs u).2 := by
  rcases Nat.eq_or_lt_of_le htu with heq | hlt
  · rw [heq]
  · have h1 := SegsFrom_E_lt_S nums h t u hlt hu
    have h2 := SegsFrom_start_lt_end nums segs p u h hu
    omega

theorem SegsFrom_S_mono (nums : List Int) {segs : List (Nat × Nat)} {p : Nat}
    (h : SegsFrom nums p segs) {t u : Nat} (htu : t ≤ u) (hu : u < segs.length) :
    (segAt segs t).1 ≤ (segAt segs u).1 := by
  rcases Nat.eq_or_lt_of_le htu with heq | hlt
  · rw [heq]
  · have h1 := SegsFrom_E_lt_S nums h t u hlt hu
    have h2 := SegsFrom_start_lt_end nums segs p t
      h (by omega)
    omega

/-! ### Zero counts induced by a segment decomposition -/

theorem zerosIn_mono_right (nums : List Int) {a b c : Nat} (hab : a ≤ b) (hbc : b ≤ c) :
    zerosIn nums a b ≤ zerosIn nums a c := by
  rw [zerosIn_add nums hab hbc]
  omega

theorem zg_before_zeros (nums : List Int) {segs : List (Nat × Nat)}
    (h : SegsFrom nums 0 segs) (h0 : 0 < segs.length) :
    ∀ i, i < (segAt segs 0).1 → nums.getD i 0 = 0 := by
  intro i hi
  have hS0 := SegsFrom_start_lt_end nums segs 0 0 h h0
  have hE0 := SegsFrom_end_le nums segs 0 0 h h0
  apply SegsFrom_outside_zero nums segs 0 i h (by omega) (by omega)
  intro t ht hSt
  have := SegsFrom_S_mono nums h (Nat.zero_le t) ht
  omega

theorem zg_after_zeros (nums : List Int) {segs : List (Nat × Nat)}
    (h : SegsFrom nums 0 segs) (h0 : 0 < segs.length) :
    ∀ i, (segAt segs (segs.length - 1)).2 ≤ i → i < nums.length → nums.getD i 0 = 0 := by
  intro i hi hin
  apply SegsFrom_outside_zero nums segs 0 i h (by omega) hin
  intro t ht hSt
  have := SegsFrom_E_mono nums h (t := t) (u := segs.length - 1) (by omega) (by omega)
  omega

theorem zg_gap_zeros (nums : List Int) {segs : List (Nat × Nat)}
    (h : SegsFrom nums 0 segs) {t : Nat} (ht : t + 1 < segs.length) :
    ∀ i, (segAt segs t).2 ≤ i → i < (segAt segs (t+1)).1 → nums.getD i 0 = 0 := by
  intro i hi1 hi2
  have hS1 := SegsFrom_start_lt_end nums segs 0 (t+1) h ht
  have hE1 := SegsFrom_end_le nums segs 0 (t+1) h ht
  apply SegsFrom_outside_zero nums segs 0 i h (by omega) (by omega)
  intro t' ht' hSt'
  rcases Nat.lt_or_ge t' (t+1) with hlt | hge
  · have := SegsFrom_E_mono nums h (t := t') (u := t) (by omega) (by omega)
    omega
  · have := SegsFrom_S_mono nums h (t := t+1) (u := t') hge ht'
    omega

theorem zg_ones (nums : List Int) {segs : List (Nat × Nat)}
    (h : SegsFrom nums 0 segs) {t : Nat} (ht : t < segs.length) :
    zerosIn nums (segAt segs t).1 (segAt segs t).2 = 0 :=
  zerosIn_eq_zero_of_ones nums (fun i h1 h2 => SegsFrom_ones nums segs 0 t h ht i h1 h2)

theorem zg_gap (nums : List Int) {segs : List (Nat × Nat)}
    (h : SegsFrom nums 0 segs) {t : Nat} (ht : t + 1 < segs.length) :
    zerosIn nums (segAt segs t).2 (segAt segs (t+1)).1 =
      (segAt segs (t+1)).1 - (segAt segs t).2 := by
  have hsep := SegsFrom_sep nums segs 0 t h ht
  have hS1 := SegsFrom_start_lt_end nums segs 0 (t+1) h ht
  have hE1 := SegsFrom_end_le nums segs 0 (t+1) h ht
  exact zerosIn_eq_of_zeros nums (by omega) (by omega)
    (fun i h1 h2 => zg_gap_zeros nums h ht i h1 h2)

theorem zg_run_succ (nums : List Int) {segs : List (Nat × Nat)}
    (h : SegsFrom nums 0 segs) {i t : Nat} (hit : i ≤ t) (ht : t + 1 < segs.length) :
    zerosIn nums (segAt segs i).1 (segAt segs (t+1)).2 =
      zerosIn nums (segAt segs i).1 (segAt segs t).2 +
        ((segAt segs (t+1)).1 - (segAt segs t).2) := by
  have hSiSt := SegsFrom_S_mono nums h hit (by omega)
  have hStEt := SegsFrom_start_lt_end nums segs 0 t h (by omega)
  have hsep := SegsFrom_sep nums segs 0 t h ht
  have hS1E1 := SegsFrom_start_lt_end nums segs 0 (t+1) h ht
  rw [zerosIn_add nums (b := (segAt segs t).2) (by omega) (by omega)]
  rw [zerosIn_add nums (a := (segAt segs t).2) (b := (segAt segs (t+1)).1) (by omega) (by omega)]
  rw [zg_gap nums h ht, zg_ones nums h ht]
  omega

theorem zg_ones_mono (nums : List Int) {segs : List (Nat × Nat)}
    (h : SegsFrom nums 0 segs) {i t v : Nat} (hit : i ≤ t) (htv : t ≤ v)
    (hv : v < segs.length) :
    ((segAt segs t).2 : Int) - (zerosIn nums (segAt segs i).1 (segAt segs t).2 : Int) ≤
      ((segAt segs v).2 : Int) - (zerosIn nums (segAt segs i).1 (segAt segs v).2 : Int) := by
  revert hv
  induction v, htv using Nat.le_induction with
  | base => intro ht'; omega
  | succ u hu ihu =>
    intro hu1
    have hrec := zg_run_succ nums h (i := i) (t := u) (by omega) hu1
    have hS1E1 := SegsFrom_start_lt_end nums segs 0 (u+1) h hu1
    have hsep := SegsFrom_sep nums segs 0 u h hu1
    have := ihu (by omega)
    omega

/-! ### Characterization of the inner loop of longestOnes -/

theorem innerGo_char (nums : List Int) {segs : List (Nat × Nat)}
    (h : SegsFrom nums 0 segs) (k : Int) {i : Nat} :
    ∀ fuel j : Nat, ∀ kRem : Int, fuel = segs.length - j → i < j → j ≤ segs.length →
      0 ≤ kRem →
      kRem + (zerosIn nums (segAt segs i).1 (segAt segs (j-1)).2 : Int) = k →
      ∃ brk j' kRem', innerGo segs fuel j kRem = (brk, j', kRem') ∧
        i < j' ∧ j' ≤ segs.length ∧ 0 ≤ kRem' ∧
        kRem' + (zerosIn nums (segAt segs i).1 (segAt segs (j'-1)).2 : Int) = k ∧
        (if brk then j' < segs.length ∧
            kRem' < ((segAt segs j').1 : Int) - ((segAt segs (j'-1)).2 : Int)
         else j' = segs.length) := by
  intro fuel
  induction fuel with
  | zero =>
    intro j kRem hfuel hij hjm hk0 hinv
    refine ⟨false, j, kRem, rfl, hij, hjm, hk0, hinv, ?_⟩
    simp
    omega
  | succ fuel ih =>
    intro j kRem hfuel hij hjm hk0 hinv
    obtain ⟨jj, rfl⟩ : ∃ jj, j = jj + 1 := ⟨j - 1, by omega⟩
    simp only [Nat.add_sub_cancel] at hinv
    have hjm' : jj + 1 < segs.length := by omega
    have hsep := SegsFrom_sep nums segs 0 jj h hjm'
    by_cases hgap : ((segAt segs (jj+1)).1 : Int) - ((segAt segs (jj+1-1)).2 : Int) ≤ kRem
    · have hstep : innerGo segs (fuel+1) (jj+1) kRem =
          innerGo segs fuel (jj+1+1)
            (kRem - (((segAt segs (jj+1)).1 : Int) - ((segAt segs (jj+1-1)).2 : Int))) := by
        simp only [innerGo]
        rw [if_pos hgap]
      simp only [Nat.add_sub_cancel] at hgap hstep
      have hrec := zg_run_succ nums h (i := i) (t := jj) (by omega) hjm'
      obtain ⟨brk, j', kRem', heq, hp⟩ := ih (jj+1+1)
        (kRem - (((segAt segs (jj+1)).1 : Int) - ((segAt segs jj).2 : Int)))
        (by omega) (by omega) (by omega) (by omega)
        (by
          simp only [Nat.add_sub_cancel]
          omega)
      exact ⟨brk, j', kRem', by rw [hstep, heq], hp⟩
    · have hstep : innerGo segs (fuel+1) (jj+1) kRem = (true, jj+1, kRem) := by
        simp only [innerGo]
        rw [if_neg hgap]
      simp only [Nat.add_sub_cancel] at hgap
      refine ⟨true, jj+1, kRem, hstep, hij, by omega, hk0, by
        simpa only [Nat.add_sub_cancel] using hinv, ?_⟩
      rw [if_pos rfl]
      simp only [Nat.add_sub_cancel]
      exact ⟨hjm', by omega⟩

/-! ### Soundness: every candidate value is realized by a feasible window -/

theorem candidate_eq_true (segs : List (Nat × Nat)) (nSegs nNums : Nat) (k : Int)
    (i : Nat) {j' : Nat} {kRem' : Int}
    (heq : innerGo segs (nSegs - (i+1)) (i+1) k = (true, j', kRem')) :
    candidate segs nSegs nNums k i =
      ((segAt segs (j'-1)).2 : Int) - ((segAt segs i).1 : Int) + kRem' := by
  unfold candidate
  rw [heq]

theorem candidate_eq_false (segs : List (Nat × Nat)) (nSegs nNums : Nat) (k : Int)
    (i : Nat) {j' : Nat} {kRem' : Int}
    (heq : innerGo segs (nSegs - (i+1)) (i+1) k = (false, j', kRem')) :
    candidate segs nSegs nNums k i =
      ((segAt segs (nSegs-1)).2 : Int) - ((segAt segs i).1 : Int) +
        min (((nNums : Int) - ((segAt segs (nSegs-1)).2 : Int)) +
          (if i = 0 then ((segAt segs 0).1 : Int)
           else ((segAt segs i).1 : Int) - ((segAt segs (i-1)).2 : Int))) kRem' := by
  unfold candidate
  rw [heq]

theorem innerGo_char_at (nums : List Int) {segs : List (Nat × Nat)}
    (h : SegsFrom nums 0 segs) (k : Int) (hk : 0 ≤ k) {i : Nat} (hi : i < segs.length) :
    ∃ brk j' kRem', innerGo segs (segs.length - (i+1)) (i+1) k = (brk, j', kRem') ∧
      i < j' ∧ j' ≤ segs.length ∧ 0 ≤ kRem' ∧
      kRem' + (zerosIn nums (segAt segs i).1 (segAt segs (j'-1)).2 : Int) = k ∧
      (if brk then j' < segs.length ∧
          kRem' < ((segAt segs j').1 : Int) - ((segAt segs (j'-1)).2 : Int)
       else j' = segs.length) := by
  apply innerGo_char nums h k (segs.length - (i+1)) (i+1) k rfl (by omega) (by omega) hk
  simp only [Nat.add_sub_cancel]
  rw [zg_ones nums h hi]
  omega

/-- In the non-break case, the left-boundary slack used by the code (the i = 0
asymmetry) counts a genuine all-zero region directly to the left of segment i. -/
theorem border_left_slack (nums : List Int) {segs : List (Nat × Nat)}
    (h : SegsFrom nums 0 segs) {i : Nat} (hi : i < segs.length) :
    ∃ LZ : Nat,
      ((if i = 0 then ((segAt segs 0).1 : Int)
        else ((segAt segs i).1 : Int) - ((segAt segs (i-1)).2 : Int)) = (LZ : Int)) ∧
      (∀ x, (segAt segs i).1 - LZ ≤ x → x < (segAt segs i).1 → nums.getD x 0 = 0) ∧
      LZ ≤ (segAt segs i).1 := by
  by_cases hi0 : i = 0
  · subst hi0
    refine ⟨(segAt segs 0).1, by rw [if_pos rfl], ?_, le_refl _⟩
    intro x _ hx2
    exact zg_before_zeros nums h hi x hx2
  · have hi1 : i - 1 + 1 = i := by omega
    have hsep : (segAt segs (i-1)).2 < (segAt segs i).1 := by
      have := SegsFrom_sep nums segs 0 (i-1) h (by omega)
      rwa [hi1] at this
    refine ⟨(segAt segs i).1 - (segAt segs (i-1)).2, by rw [if_neg hi0]; omega, ?_, by omega⟩
    intro x hx1 hx2
    have hx1' : (segAt segs (i-1)).2 ≤ x := by omega
    have := zg_gap_zeros nums h (t := i-1) (by omega) x hx1' (by rwa [hi1])
    exact this

theorem candidate_le_spec (nums : List Int) {segs : List (Nat × Nat)}
    (h : SegsFrom nums 0 segs) {k : Int} (hk : 0 ≤ k) {i : Nat} (hi : i < segs.length) :
    candidate segs segs.length nums.length k i ≤ (specMaxWindow nums k : Int) := by
  obtain ⟨brk, j', kRem', heq, hij', hj'm, hk0', hinv, hbrk⟩ :=
    innerGo_char_at nums h k hk hi
  cases brk with
  | true =>
    rw [if_pos rfl] at hbrk
    obtain ⟨hj'lt, hgap⟩ := hbrk
    rw [candidate_eq_true segs segs.length nums.length k i heq]
    have hj1 : j' - 1 + 1 = j' := by omega
    have hE1 := SegsFrom_start_lt_end nums segs 0 j' h hj'lt
    have hEn := SegsFrom_end_le nums segs 0 j' h hj'lt
    have hsep : (segAt segs (j'-1)).2 < (segAt segs j').1 := by
      have := SegsFrom_sep nums segs 0 (j'-1) h (by omega)
      rwa [hj1] at this
    have hSi_le : (segAt segs i).1 ≤ (segAt segs (j'-1)).2 := by
      have h1 := SegsFrom_S_mono nums h (t := i) (u := j'-1) (by omega) (by omega)
      have h2 := SegsFrom_start_lt_end nums segs 0 (j'-1) h (by omega)
      omega
    set c := kRem'.toNat with hc
    have hcI : (c : Int) = kRem' := by omega
    have hbound : (segAt segs (j'-1)).2 + c ≤ (segAt segs j').1 := by omega
    have hzright : zerosIn nums (segAt segs (j'-1)).2 ((segAt segs (j'-1)).2 + c) = c := by
      have := zerosIn_eq_of_zeros nums (a := (segAt segs (j'-1)).2)
        (b := (segAt segs (j'-1)).2 + c) (by omega) (by omega)
        (fun x hx1 hx2 => by
          have hgz := zg_gap_zeros nums h (t := j'-1) (by omega) x hx1
            (by rw [hj1]; omega)
          exact hgz)
      omega
    have hzsum : (zerosIn nums (segAt segs i).1 ((segAt segs (j'-1)).2 + c) : Int) ≤ k := by
      rw [zerosIn_add nums (b := (segAt segs (j'-1)).2) hSi_le (by omega), hzright]
      omega
    have hspec := le_specMaxWindow nums k (a := (segAt segs i).1)
      (b := (segAt segs (j'-1)).2 + c) (by omega) (by omega) hzsum
    omega
  | false =>
    rw [if_neg (by simp)] at hbrk
    subst hbrk
    rw [candidate_eq_false segs segs.length nums.length k i heq]
    have hm0 : 0 < segs.length := by omega
    have hEmn := SegsFrom_end_le nums segs 0 (segs.length-1) h (by omega)
    have hSEm := SegsFrom_start_lt_end nums segs 0 (segs.length-1) h (by omega)
    have hSi_le : (segAt segs i).1 ≤ (segAt segs (segs.length-1)).2 := by
      have h1 := SegsFrom_S_mono nums h (t := i) (u := segs.length-1) (by omega) (by omega)
      omega
    have hSin : (segAt segs i).1 ≤ nums.length := by omega
    obtain ⟨LZ, hLZeq, hLZzeros, hLZle⟩ := border_left_slack nums h hi
    rw [hLZeq]
    set Em := (segAt segs (segs.length-1)).2 with hEm
    set Si := (segAt segs i).1 with hSi
    set cI := min (((nums.length : Int) - (Em : Int)) + (LZ : Int)) kRem' with hcI
    have hcI0 : 0 ≤ cI := by omega
    set c := cI.toNat with hc
    have hcc : (c : Int) = cI := by omega
    set ra := min (nums.length - Em) c with hra
    set la := c - ra with hla
    have hlaLZ : la ≤ LZ := by omega
    have hzleft : zerosIn nums (Si - la) Si = la := by
      have := zerosIn_eq_of_zeros nums (a := Si - la) (b := Si) (by omega) hSin
        (fun x hx1 hx2 => hLZzeros x (by omega) hx2)
      omega
    have hzright : zerosIn nums Em (Em + ra) = ra := by
      have := zerosIn_eq_of_zeros nums (a := Em) (b := Em + ra) (by omega) (by omega)
        (fun x hx1 hx2 => zg_after_zeros nums h (by omega) x hx1 (by omega))
      omega
    have hzmid : (zerosIn nums Si Em : Int) = k - kRem' := by omega
    have hzsum : (zerosIn nums (Si - la) (Em + ra) : Int) ≤ k := by
      rw [zerosIn_add nums (b := Si) (by omega) (by omega),
        zerosIn_add nums (a := Si) (b := Em) (by omega) (by omega)]
      push_cast
      omega
    have hspec := le_specMaxWindow nums k (a := Si - la) (b := Em + ra)
      (by omega) (by omega) hzsum
    omega

/-! ### Outer loop bounds -/

theorem outerGo_ge_init (segs : List (Nat × Nat)) (nSegs nNums : Nat) (k : Int) :
    ∀ fuel i maxOnes, maxOnes ≤ outerGo segs nSegs nNums k fuel i maxOnes := by
  intro fuel
  induction fuel with
  | zero => intro i maxOnes; exact le_refl _
  | succ fuel ih =>
    intro i maxOnes
    calc maxOnes ≤ max maxOnes (candidate segs nSegs nNums k i) := le_max_left _ _
      _ ≤ outerGo segs nSegs nNums k fuel (i+1)
            (max maxOnes (candidate segs nSegs nNums k i)) := ih _ _

theorem outerGo_le (segs : List (Nat × Nat)) (nSegs nNums : Nat) (k M : Int) :
    ∀ fuel i : Nat, ∀ maxOnes : Int, maxOnes ≤ M →
      (∀ t, i ≤ t → t < i + fuel → candidate segs nSegs nNums k t ≤ M) →
      outerGo segs nSegs nNums k fuel i maxOnes ≤ M := by
  intro fuel
  induction fuel with
  | zero => intro i maxOnes hmo _; exact hmo
  | succ fuel ih =>
    intro i maxOnes hmo hcand
    apply ih (i+1)
    · exact max_le hmo (hcand i (le_refl i) (by omega))
    · intro t ht1 ht2
      exact hcand t (by omega) (by omega)

theorem outerGo_ge_candidate (segs : List (Nat × Nat)) (nSegs nNums : Nat) (k : Int) :
    ∀ fuel i : Nat, ∀ maxOnes : Int, ∀ t, i ≤ t → t < i + fuel →
      candidate segs nSegs nNums k t ≤ outerGo segs nSegs nNums k fuel i maxOnes := by
  intro fuel
  induction fuel with
  | zero => intro i maxOnes t h1 h2; omega
  | succ fuel ih =>
    intro i maxOnes t h1 h2
    rcases Nat.eq_or_lt_of_le h1 with heq | hlt
    · calc candidate segs nSegs nNums k t
          ≤ max maxOnes (candidate segs nSegs nNums k i) := by rw [← heq]; exact le_max_right _ _
        _ ≤ outerGo segs nSegs nNums k fuel (i+1)
              (max maxOnes (candidate segs nSegs nNums k i)) := outerGo_ge_init _ _ _ _ _ _ _
    · exact ih (i+1) _ t hlt (by omega)

theorem longestOnes_def (nums : List Int) (k : Int) :
    longestOnes nums k = outerGo (getSegments nums) (getSegments nums).length nums.length k
      (getSegments nums).length 0 (min (nums.length : Int) k) := rfl

theorem init_le_spec (nums : List Int) {k : Int} (hk : 0 ≤ k) :
    min (nums.length : Int) k ≤ (specMaxWindow nums k : Int) := by
  set b := min nums.length k.toNat with hb
  have hz : (zerosIn nums 0 b : Int) ≤ k := by
    have := zerosIn_le nums 0 b
    omega
  have := le_specMaxWindow nums k (a := 0) (Nat.zero_le b) (by omega) hz
  omega

/-! ### Completeness: every feasible window is bounded by the loop result -/

theorem window_le_longestOnes (nums : List Int) (hbin : Binary nums) {k : Int} (hk : 0 ≤ k)
    {a b : Nat} (hab : a ≤ b) (hb : b ≤ nums.length)
    (hfeas : (zerosIn nums a b : Int) ≤ k) :
    (b : Int) - (a : Int) ≤ longestOnes nums k := by
  classical
  have h := getSegments_SegsFrom nums hbin
  set segs := getSegments nums with hsegs
  have hinit := outerGo_ge_init segs segs.length nums.length k segs.length 0
    (min (nums.length : Int) k)
  have hlodef : longestOnes nums k = outerGo segs segs.length nums.length k
      segs.length 0 (min (nums.length : Int) k) := longestOnes_def nums k
  by_cases hex : ∃ t, t < segs.length ∧ (segAt segs t).1 < b ∧ a < (segAt segs t).2
  case neg =>
    have hzero : ∀ x, a ≤ x → x < b → nums.getD x 0 = 0 := by
      intro x hx1 hx2
      apply SegsFrom_outside_zero nums segs 0 x h (by omega) (by omega)
      intro t ht hSt hxE
      exact hex ⟨t, ht, by omega, by omega⟩
    have hz := zerosIn_eq_of_zeros nums hab hb hzero
    omega
  case pos =>
    obtain ⟨t0, ht0⟩ := hex
    have hfind : ∃ t, t < segs.length ∧ (segAt segs t).1 < b ∧ a < (segAt segs t).2 := ⟨t0, ht0⟩
    set i0 := Nat.find hfind with hi0def
    set j0 := Nat.findGreatest
      (fun t => t < segs.length ∧ (segAt segs t).1 < b ∧ a < (segAt segs t).2)
      segs.length with hj0def
    have hPi0 : i0 < segs.length ∧ (segAt segs i0).1 < b ∧ a < (segAt segs i0).2 :=
      Nat.find_spec hfind
    have hPj0 : j0 < segs.length ∧ (segAt segs j0).1 < b ∧ a < (segAt segs j0).2 :=
      Nat.findGreatest_spec
        (P := fun t => t < segs.length ∧ (segAt segs t).1 < b ∧ a < (segAt segs t).2)
        (n := segs.length) (m := t0) (by omega) ht0
    have hij0 : i0 ≤ j0 := Nat.le_findGreatest (by omega) hPi0
    have hi0m : i0 < segs.length := hPi0.1
    have hj0m : j0 < segs.length := hPj0.1
    have hSi0b : (segAt segs i0).1 < b := hPi0.2.1
    have haEi0 : a < (segAt segs i0).2 := hPi0.2.2
    have hSj0b : (segAt segs j0).1 < b := hPj0.2.1
    have haEj0 : a < (segAt segs j0).2 := hPj0.2.2
    set a' := min a (segAt segs i0).1 with hadef
    set b' := max b (segAt segs j0).2 with hbdef
    have hSi0Ei0 := SegsFrom_start_lt_end nums segs 0 i0 h hi0m
    have hSj0Ej0 := SegsFrom_start_lt_end nums segs 0 j0 h hj0m
    have hEi0n := SegsFrom_end_le nums segs 0 i0 h hi0m
    have hEj0n := SegsFrom_end_le nums segs 0 j0 h hj0m
    have hSmono := SegsFrom_S_mono nums h hij0 hj0m
    have hEmono := SegsFrom_E_mono nums h hij0 hj0m
    -- extending the window over the partially covered boundary runs costs no zeros
    have hza : zerosIn nums a' a = 0 := by
      rcases le_or_lt a (segAt segs i0).1 with hcase | hcase
      · have haa : a' = a := by omega
        rw [haa, zerosIn_self]
      · have ha'S : a' = (segAt segs i0).1 := by omega
        rw [ha'S]
        apply zerosIn_eq_zero_of_ones
        intro x hx1 hx2
        exact SegsFrom_ones nums segs 0 i0 h hi0m x hx1 (by omega)
    have hzb : zerosIn nums b b' = 0 := by
      rcases le_or_lt (segAt segs j0).2 b with hcase | hcase
      · have hbb : b' = b := by omega
        rw [hbb, zerosIn_self]
      · have hb'E : b' = (segAt segs j0).2 := by omega
        rw [hb'E]
        apply zerosIn_eq_zero_of_ones
        intro x hx1 hx2
        exact SegsFrom_ones nums segs 0 j0 h hj0m x (by omega) hx2
    have hfeas' : (zerosIn nums a' b' : Int) ≤ k := by
      have e1 := zerosIn_add nums (a := a') (b := a) (c := b') (by omega) (by omega)
      have e2 := zerosIn_add nums (a := a) (b := b) (c := b') hab (by omega)
      omega
    -- left slack: everything between the previous run (or position 0) and S i0 is zero
    obtain ⟨LZ, hLZeq, hLZzeros, hLZle⟩ := border_left_slack nums h hi0m
    have ha'a : a' ≤ a := min_le_left _ _
    have ha'S : a' ≤ (segAt segs i0).1 := min_le_right _ _
    have hbb' : b ≤ b' := le_max_left _ _
    have hEjb' : (segAt segs j0).2 ≤ b' := le_max_right _ _
    have hSiEj0 : (segAt segs i0).1 ≤ (segAt segs j0).2 := by omega
    have ha'lower : (segAt segs i0).1 - LZ ≤ a' := by
      rw [hadef]
      apply le_min _ (by omega)
      by_cases hi00 : i0 = 0
      · rw [hi00] at hLZeq
        rw [if_pos rfl] at hLZeq
        rw [hi00]
        omega
      · rw [if_neg hi00] at hLZeq
        have hi1 : i0 - 1 + 1 = i0 := by omega
        have hsepl : (segAt segs (i0-1)).2 < (segAt segs i0).1 := by
          have := SegsFrom_sep nums segs 0 (i0-1) h (by omega)
          rwa [hi1] at this
        rcases le_or_lt (segAt segs i0).1 a with hcase | hcase
        · omega
        · -- a' = a; the run i0 - 1 does not meet [a, b), hence ends at or before a
          have hnP := Nat.find_min hfind (m := i0 - 1) (by omega)
          have hSl : (segAt segs (i0-1)).1 < b := by
            have := SegsFrom_start_lt_end nums segs 0 (i0-1) h (by omega)
            omega
          have hEl : (segAt segs (i0-1)).2 ≤ a := by
            by_contra hcon
            exact hnP ⟨by omega, hSl, by omega⟩
          omega
    have hzla : zerosIn nums a' (segAt segs i0).1 = (segAt segs i0).1 - a' := by
      apply zerosIn_eq_of_zeros nums (by omega) (by omega)
      intro x hx1 hx2
      exact hLZzeros x (by omega) hx2
    -- right slack
    have hb'upper : j0 + 1 < segs.length → b' ≤ (segAt segs (j0+1)).1 := by
      intro hj1m
      have hnP := Nat.findGreatest_is_greatest
        (P := fun t => t < segs.length ∧ (segAt segs t).1 < b ∧ a < (segAt segs t).2)
        (by omega : j0 < j0+1) (by omega : j0+1 ≤ segs.length)
      have hEmono1 := SegsFrom_E_mono nums h (t := i0) (u := j0+1) (by omega) hj1m
      have hsep := SegsFrom_sep nums segs 0 j0 h hj1m
      by_contra hcon
      exact hnP ⟨hj1m, by omega, by omega⟩
    have hb'n : b' ≤ nums.length := by omega
    have hzrb : zerosIn nums (segAt segs j0).2 b' = b' - (segAt segs j0).2 := by
      apply zerosIn_eq_of_zeros nums (by omega) hb'n
      intro x hx1 hx2
      by_cases hj0last : j0 = segs.length - 1
      · apply zg_after_zeros nums h (by omega) x (by rw [← hj0last]; exact hx1) (by omega)
      · have hj1m : j0 + 1 < segs.length := by omega
        have hb'S := hb'upper hj1m
        exact zg_gap_zeros nums h (t := j0) hj1m x hx1 (by omega)
    have hdecomp : zerosIn nums a' b' =
        ((segAt segs i0).1 - a') + zerosIn nums (segAt segs i0).1 (segAt segs j0).2 +
          (b' - (segAt segs j0).2) := by
      rw [zerosIn_add nums (a := a') (b := (segAt segs i0).1) (c := b') (by omega) (by omega),
          zerosIn_add nums (a := (segAt segs i0).1) (b := (segAt segs j0).2) (c := b')
            (by omega) (by omega)]
      rw [hzla, hzrb]
      omega
    -- the candidate computed at iteration i0 dominates the window
    obtain ⟨brk, j', kRem', heq, hij', hj'm, hk0', hinv, hbrk⟩ :=
      innerGo_char_at nums h k hk hi0m
    have hcand_le : candidate segs segs.length nums.length k i0 ≤ longestOnes nums k := by
      rw [hlodef]
      exact outerGo_ge_candidate segs segs.length nums.length k segs.length 0
        (min (nums.length : Int) k) i0 (by omega) (by omega)
    cases brk with
    | true =>
      rw [if_pos rfl] at hbrk
      obtain ⟨hj'lt, hgap⟩ := hbrk
      rw [candidate_eq_true segs segs.length nums.length k i0 heq] at hcand_le
      have hj1 : j' - 1 + 1 = j' := by omega
      have hsepj' : (segAt segs (j'-1)).2 < (segAt segs j').1 := by
        have := SegsFrom_sep nums segs 0 (j'-1) h (by omega)
        rwa [hj1] at this
      have hgapz : zerosIn nums (segAt segs (j'-1)).2 (segAt segs j').1 =
          (segAt segs j').1 - (segAt segs (j'-1)).2 := by
        have := zg_gap nums h (t := j'-1) (by omega)
        rwa [hj1] at this
      have hSiEj1 : (segAt segs i0).1 ≤ (segAt segs (j'-1)).2 := by
        have h1 := SegsFrom_S_mono nums h (t := i0) (u := j'-1) (by omega) (by omega)
        have h2 := SegsFrom_start_lt_end nums segs 0 (j'-1) h (by omega)
        omega
      have hj0j' : j0 < j' := by
        by_contra hcon
        push_neg at hcon
        have hSj'Ej0 : (segAt segs j').1 ≤ (segAt segs j0).2 := by
          have h1 := SegsFrom_S_mono nums h (t := j') (u := j0) hcon hj0m
          omega
        have h1 := zerosIn_add nums (a := (segAt segs i0).1) (b := (segAt segs (j'-1)).2)
          (c := (segAt segs j').1) hSiEj1 (by omega)
        have h2 := zerosIn_mono_right nums (a := (segAt segs i0).1)
          (b := (segAt segs j').1) (c := (segAt segs j0).2)
          (by omega) hSj'Ej0
        omega
      have hones_mono := zg_ones_mono nums h (i := i0) (t := j0) (v := j'-1)
        (by omega) (by omega) (by omega)
      omega
    | false =>
      rw [if_neg (by simp)] at hbrk
      subst hbrk
      rw [candidate_eq_false segs segs.length nums.length k i0 heq] at hcand_le
      rw [hLZeq] at hcand_le
      have hEmlast := SegsFrom_E_mono nums h (t := j0) (u := segs.length-1)
        (by omega) (by omega)
      have hSEm := SegsFrom_start_lt_end nums segs 0 (segs.length-1) h (by omega)
      have hEmn := SegsFrom_end_le nums segs 0 (segs.length-1) h (by omega)
      by_cases hj0last : j0 = segs.length - 1
      · have hEj0Em : (segAt segs j0).2 = (segAt segs (segs.length-1)).2 := by
          rw [hj0last]
        have hmid : zerosIn nums (segAt segs i0).1 (segAt segs j0).2 =
            zerosIn nums (segAt segs i0).1 (segAt segs (segs.length-1)).2 := by
          rw [hj0last]
        omega
      · have hj1m : j0 + 1 < segs.length := by omega
        have hb'S := hb'upper hj1m
        have hSj01m := SegsFrom_S_mono nums h (t := j0+1) (u := segs.length-1)
          (by omega) (by omega)
        have hSEj01 := SegsFrom_start_lt_end nums segs 0 (j0+1) h hj1m
        have hones_mono := zg_ones_mono nums h (i := i0) (t := j0) (v := segs.length-1)
          (by omega) (by omega) (by omega)
        omega

/-! ### Master theorem: longestOnes computes the spec-level maximum -/

theorem longestOnes_eq_specMaxWindow (nums : List Int) (k : Int) (hbin : Binary nums)
    (hk : 0 ≤ k) : longestOnes nums k = (specMaxWindow nums k : Int) := by
  have h := getSegments_SegsFrom nums hbin
  apply le_antisymm
  · rw [longestOnes_def]
    apply outerGo_le
    · exact init_le_spec nums hk
    · intro t ht1 ht2
      exact candidate_le_spec nums h hk (by omega)
  · have h0 : (0:Int) ≤ longestOnes nums k := by
      have := outerGo_ge_init (getSegments nums) (getSegments nums).length nums.length k
        (getSegments nums).length 0 (min (nums.length:Int) k)
      rw [longestOnes_def]
      omega
    have hle : specMaxWindow nums k ≤ (longestOnes nums k).toNat := by
      show specMaxUpTo nums k nums.length ≤ (longestOnes nums k).toNat
      apply specMaxUpTo_le
      intro a b hab hbn hfeas
      have := window_le_longestOnes nums hbin hk hab hbn hfeas
      omega
    omega

theorem longestOnes_nonneg (nums : List Int) (k : Int) (hk : 0 ≤ k) :
    0 ≤ longestOnes nums k := by
  have := outerGo_ge_init (getSegments nums) (getSegments nums).length nums.length k
    (getSegments nums).length 0 (min (nums.length:Int) k)
  rw [longestOnes_def]
  omega

theorem specMaxWindow_le_length (nums : List Int) (k : Int) :
    specMaxWindow nums k ≤ nums.length := by
  show specMaxUpTo nums k nums.length ≤ nums.length
  apply specMaxUpTo_le
  intro a b hab hbn _
  omega

/-! ### Spec-level properties of the maximum window length -/

theorem spec_saturation (nums : List Int) {k : Int}
    (hzeros : (nums.count 0 : Int) ≤ k) : specMaxWindow nums k = nums.length := by
  apply le_antisymm (specMaxWindow_le_length nums k)
  have hz : (zerosIn nums 0 nums.length : Int) ≤ k := by
    rw [zerosIn_full]
    exact hzeros
  have := le_specMaxWindow nums k (a := 0) (Nat.zero_le _) (le_refl _) hz
  omega

theorem spec_mono_k (nums : List Int) {k k' : Int} (hkk' : k ≤ k') :
    specMaxWindow nums k ≤ specMaxWindow nums k' := by
  show specMaxUpTo nums k nums.length ≤ specMaxWindow nums k'
  apply specMaxUpTo_le
  intro a b hab hbn hfeas
  exact le_specMaxWindow nums k' hab hbn (le_trans hfeas hkk')

theorem spec_reverse_le (nums : List Int) (k : Int) :
    specMaxWindow nums.reverse k ≤ specMaxWindow nums k := by
  show specMaxUpTo nums.reverse k nums.reverse.length ≤ specMaxWindow nums k
  apply specMaxUpTo_le
  intro a b hab hbn hfeas
  rw [List.length_reverse] at hbn
  have hz : zerosIn nums (nums.length - b) (nums.length - a) = zerosIn nums.reverse a b := by
    have := zerosIn_reverse nums.reverse (a := a) (b := b) hab
      (by rw [List.length_reverse]; exact hbn)
    rw [List.reverse_reverse, List.length_reverse] at this
    exact this
  have hle := le_specMaxWindow nums k (a := nums.length - b) (b := nums.length - a)
    (by omega) (by omega) (by rw [hz]; exact hfeas)
  omega

theorem spec_reverse (nums : List Int) (k : Int) :
    specMaxWindow nums.reverse k = specMaxWindow nums k := by
  apply le_antisymm (spec_reverse_le nums k)
  have := spec_reverse_le nums.reverse k
  rwa [List.reverse_reverse] at this

theorem ones_of_zerosIn_eq_zero (nums : List Int) (hbin : Binary nums) {a b : Nat}
    (hb : b ≤ nums.length) (hz : zerosIn nums a b = 0) :
    ∀ i, a ≤ i → i < b → nums.getD i 0 = 1 := by
  intro i hai hib
  have hnotmem : (0:Int) ∉ window nums a b := List.count_eq_zero.mp hz
  have hidx : i - a < (window nums a b).length := by
    rw [window_length]
    omega
  have hval : (window nums a b)[i - a] = nums.getD i 0 := by
    rw [window_getElem nums a b (i - a) hidx]
    congr 1
    omega
  rcases binary_getD nums hbin (show i < nums.length by omega) with h0 | h1
  · exfalso
    apply hnotmem
    rw [← h0, ← hval]
    exact List.getElem_mem hidx
  · exact h1

theorem SegsFrom_left_boundary (nums : List Int) {segs : List (Nat × Nat)}
    (h : SegsFrom nums 0 segs) {t : Nat} (ht : t < segs.length) :
    (segAt segs t).1 = 0 ∨ nums.getD ((segAt segs t).1 - 1) 0 = 0 := by
  by_cases h0 : (segAt segs t).1 = 0
  · exact Or.inl h0
  · right
    have hSE := SegsFrom_start_lt_end nums segs 0 t h ht
    have hEn := SegsFrom_end_le nums segs 0 t h ht
    apply SegsFrom_outside_zero nums segs 0 _ h (Nat.zero_le _) (by omega)
    intro t' ht' hSt'
    rcases Nat.lt_or_ge t' t with hlt | hge
    · have := SegsFrom_E_lt_S nums h t' t hlt ht
      omega
    · have := SegsFrom_S_mono nums h hge ht'
      omega

theorem SegsFrom_right_boundary (nums : List Int) {segs : List (Nat × Nat)}
    (h : SegsFrom nums 0 segs) {t : Nat} (ht : t < segs.length) :
    (segAt segs t).2 = nums.length ∨ nums.getD (segAt segs t).2 0 = 0 := by
  have hEn := SegsFrom_end_le nums segs 0 t h ht
  by_cases hn : (segAt segs t).2 = nums.length
  · exact Or.inl hn
  · right
    apply SegsFrom_outside_zero nums segs 0 _ h (Nat.zero_le _) (by omega)
    intro t' ht' hSt'
    rcases le_or_lt t' t with hle | hgt
    · have := SegsFrom_E_mono nums h hle ht
      omega
    · have := SegsFrom_E_lt_S nums h t t' hgt ht'
      omega

theorem segAt_isMaxRun (nums : List Int) {segs : List (Nat × Nat)}
    (h : SegsFrom nums 0 segs) {t : Nat} (ht : t < segs.length) :
    isMaxRun nums (segAt segs t).1 (segAt segs t).2 :=
  ⟨SegsFrom_start_lt_end nums segs 0 t h ht,
   SegsFrom_end_le nums segs 0 t h ht,
   fun i h1 h2 => SegsFrom_ones nums segs 0 t h ht i h2 h1,
   SegsFrom_left_boundary nums h ht,
   SegsFrom_right_boundary nums h ht⟩

theorem isMaxRun_le_longestMaxRun (nums : List Int) {s e : Nat}
    (hrun : isMaxRun nums s e) : e - s ≤ longestMaxRun nums := by
  have hse := hrun.1
  have hen := hrun.2.1
  have hmem : (s, e) ∈ Finset.range (nums.length+1) ×ˢ Finset.range (nums.length+1) := by
    rw [Finset.mem_product]
    constructor <;> (rw [Finset.mem_range]; omega)
  have hle := Finset.le_sup
    (f := fun p : Nat × Nat => if isMaxRun nums p.1 p.2 then p.2 - p.1 else 0) hmem
  simpa [hrun] using hle

theorem spec_zero_budget (nums : List Int) (hbin : Binary nums) :
    specMaxWindow nums 0 = longestMaxRun nums := by
  have h := getSegments_SegsFrom nums hbin
  apply le_antisymm
  · show specMaxUpTo nums 0 nums.length ≤ _
    apply specMaxUpTo_le
    intro a b hab hbn hfeas
    rcases Nat.eq_or_lt_of_le hab with heq | hlt
    · omega
    · have hz : zerosIn nums a b = 0 := by omega
      have hones := ones_of_zerosIn_eq_zero nums hbin hbn hz
      have ha1 : nums.getD a 0 = 1 := hones a (le_refl a) hlt
      obtain ⟨t, htm, hSta, haEt⟩ :=
        SegsFrom_mem_seg nums h (Nat.zero_le a) (by omega) ha1
      have hSE := SegsFrom_start_lt_end nums (getSegments nums) 0 t h htm
      have hEn := SegsFrom_end_le nums (getSegments nums) 0 t h htm
      have hbEt : b ≤ (segAt (getSegments nums) t).2 := by
        by_contra hcon
        push_neg at hcon
        have h1 := hones (segAt (getSegments nums) t).2 (by omega) hcon
        rcases SegsFrom_right_boundary nums h htm with hE | hE
        · omega
        · omega
      have hle := isMaxRun_le_longestMaxRun nums (segAt_isMaxRun nums h htm)
      omega
  · apply Finset.sup_le
    intro p hp
    by_cases hrun : isMaxRun nums p.1 p.2
    · rw [if_pos hrun]
      obtain ⟨hse, hen, hones, hlb, hrb⟩ := hrun
      have hz : (zerosIn nums p.1 p.2 : Int) ≤ 0 := by
        rw [zerosIn_eq_zero_of_ones nums (fun i h1 h2 => hones i h2 h1)]
        omega
      exact le_specMaxWindow nums 0 (by omega) hen hz
    · rw [if_neg hrun]
      exact Nat.zero_le _

/-! ### getSegments returns exactly the maximal runs -/

theorem mem_of_segAt {segs : List (Nat × Nat)} {t : Nat} (ht : t < segs.length) :
    segAt segs t ∈ segs := by
  unfold segAt
  rw [List.getD_eq_getElem segs (0,0) ht]
  exact List.getElem_mem ht

theorem segAt_of_mem {segs : List (Nat × Nat)} {p : Nat × Nat} (hp : p ∈ segs) :
    ∃ t, t < segs.length ∧ segAt segs t = p := by
  obtain ⟨t, ht, heq⟩ := List.getElem_of_mem hp
  exact ⟨t, ht, by rw [segAt, List.getD_eq_getElem segs (0,0) ht, heq]⟩

theorem getSegments_mem_isMaxRun (nums : List Int) (hbin : Binary nums) {p : Nat × Nat}
    (hp : p ∈ getSegments nums) : isMaxRun nums p.1 p.2 := by
  have h := getSegments_SegsFrom nums hbin
  obtain ⟨t, ht, heq⟩ := segAt_of_mem hp
  rw [← heq]
  exact segAt_isMaxRun nums h ht

theorem isMaxRun_mem_getSegments (nums : List Int) (hbin : Binary nums) {s e : Nat}
    (hrun : isMaxRun nums s e) : (s, e) ∈ getSegments nums := by
  have h := getSegments_SegsFrom nums hbin
  obtain ⟨hse, hen, hones, hlb, hrb⟩ := hrun
  have hs1 : nums.getD s 0 = 1 := hones s hse (le_refl s)
  obtain ⟨t, htm, hSts, hsEt⟩ := SegsFrom_mem_seg nums h (Nat.zero_le s) (by omega) hs1
  have hSE := SegsFrom_start_lt_end nums (getSegments nums) 0 t h htm
  have hEn := SegsFrom_end_le nums (getSegments nums) 0 t h htm
  have hseq : s = (segAt (getSegments nums) t).1 := by
    by_contra hcon
    have hlt : (segAt (getSegments nums) t).1 < s := by omega
    have hs0 : s ≠ 0 := by omega
    have hprev : nums.getD (s-1) 0 = 1 :=
      SegsFrom_ones nums (getSegments nums) 0 t h htm (s-1) (by omega) (by omega)
    rcases hlb with hl | hl
    · omega
    · omega
  have heeq : e = (segAt (getSegments nums) t).2 := by
    rcases Nat.lt_trichotomy e (segAt (getSegments nums) t).2 with hlt | hq | hgt
    · exfalso
      have he1 : nums.getD e 0 = 1 :=
        SegsFrom_ones nums (getSegments nums) 0 t h htm e (by omega) hlt
      rcases hrb with hr | hr
      · omega
      · omega
    · exact hq
    · exfalso
      have he1 : nums.getD (segAt (getSegments nums) t).2 0 = 1 :=
        hones (segAt (getSegments nums) t).2 hgt (by omega)
      rcases SegsFrom_right_boundary nums h htm with hr | hr
      · omega
      · omega
  have : (s, e) = segAt (getSegments nums) t := by
    rw [hseq, heeq]
  rw [this]
  exact mem_of_segAt htm

theorem getSegments_chain (nums : List Int) :
    ∀ segs : List (Nat × Nat), ∀ p : Nat, SegsFrom nums p segs →
      List.Chain' (fun q r : Nat × Nat => q.2 < r.1 ∧ nums.getD q.2 0 = 0) segs := by
  intro segs
  induction segs with
  | nil => intro p _; exact List.chain'_nil
  | cons se rest ih =>
    intro p h
    obtain ⟨s, e⟩ := se
    obtain ⟨hps, hse, hen, hzb, hones, hor⟩ := h
    rcases hor with ⟨hn, hrest⟩ | ⟨hlt, hze, hrec⟩
    · subst hrest
      exact List.chain'_singleton _
    · have hch := ih (e+1) hrec
      cases rest with
      | nil => exact List.chain'_singleton _
      | cons se2 rest2 =>
        obtain ⟨s2, e2⟩ := se2
        have hs2 : e + 1 ≤ s2 := hrec.1
        exact List.Chain'.cons ⟨by omega, hze⟩ hch

/-! ### Behavior when the sequence has no 1-valued element -/

theorem getSegmentsGo_no_ones :
    ∀ rest : List Int, ∀ i ss : Nat, (∀ x ∈ rest, x ≠ 1) →
      getSegmentsGo rest i true ss = [] := by
  intro rest
  induction rest with
  | nil => intro i ss _; rfl
  | cons x rest ih =>
    intro i ss hno
    have hx : x ≠ 1 := hno x (by simp)
    have hstep : getSegmentsGo (x :: rest) i true ss = getSegmentsGo rest (i+1) true ss := by
      simp only [getSegmentsGo]
      norm_num [hx]
    rw [hstep]
    exact ih (i+1) ss (fun y hy => hno y (by simp [hy]))

theorem longestOnes_no_ones (nums : List Int) (hno : ∀ x ∈ nums, x ≠ 1) (k : Int) :
    longestOnes nums k = min (nums.length : Int) k := by
  have hseg : getSegments nums = [] := getSegmentsGo_no_ones nums 0 0 hno
  rw [longestOnes_def, hseg]
  rfl

/-! ### Correctness of the sliding-window algorithm of the design document -/

theorem shrinkGo_spec (nums : List Int) (k : Int) (hk : 0 ≤ k) (e1 : Nat)
    (he1 : e1 ≤ nums.length) :
    ∀ fuel start : Nat, ∀ zeros : Int, fuel = e1 - start → start ≤ e1 →
      zeros = (zerosIn nums start e1 : Int) →
      ∃ start1 : Nat, ∃ zeros1 : Int, shrinkGo nums k fuel start zeros = (start1, zeros1) ∧
        start ≤ start1 ∧ start1 ≤ e1 ∧ zeros1 = (zerosIn nums start1 e1 : Int) ∧
        zeros1 ≤ k ∧
        ∀ a, start ≤ a → a < start1 → k < (zerosIn nums a e1 : Int) := by
  intro fuel
  induction fuel with
  | zero =>
    intro start zeros hfuel hse hz
    have hstart : start = e1 := by omega
    have hz0 : zeros ≤ k := by
      rw [hstart, zerosIn_self] at hz
      omega
    exact ⟨start, zeros, rfl, le_refl _, hse, hz, hz0, by omega⟩
  | succ fuel ih =>
    intro start zeros hfuel hse hz
    by_cases hover : k < zeros
    · have hstep : shrinkGo nums k (fuel+1) start zeros =
          shrinkGo nums k fuel (start+1)
            (zeros - (if nums.getD start 0 = 0 then 1 else 0)) := by
        simp only [shrinkGo]
        rw [if_pos hover]
      have hslt : start < e1 := by
        by_contra hcon
        have heq : start = e1 := by omega
        rw [heq, zerosIn_self] at hz
        omega
      have hadd := zerosIn_add nums (a := start) (b := start+1) (c := e1)
        (by omega) (by omega)
      have hsingle := zerosIn_single nums (show start < nums.length by omega)
      have hfix : zeros - (if nums.getD start 0 = 0 then (1:Int) else 0) =
          (zerosIn nums (start+1) e1 : Int) := by
        by_cases hx : nums.getD start 0 = 0
        · rw [if_pos hx]
          rw [if_pos hx] at hsingle
          omega
        · rw [if_neg hx]
          rw [if_neg hx] at hsingle
          omega
      obtain ⟨start1, zeros1, heq, h1, h2, h3, h4, h5⟩ :=
        ih (start+1) (zeros - (if nums.getD start 0 = 0 then 1 else 0))
          (by omega) (by omega) hfix
      refine ⟨start1, zeros1, by rw [hstep, heq], by omega, h2, h3, h4, ?_⟩
      intro a ha1 ha2
      rcases Nat.eq_or_lt_of_le ha1 with haeq | halt
      · rw [← haeq]
        omega
      · exact h5 a (by omega) ha2
    · have hstep : shrinkGo nums k (fuel+1) start zeros = (start, zeros) := by
        simp only [shrinkGo]
        rw [if_neg hover]
      exact ⟨start, zeros, hstep, le_refl _, hse, hz, by omega, by omega⟩

theorem specMaxUpTo_zero (nums : List Int) (k : Int) : specMaxUpTo nums k 0 = 0 := by
  apply Nat.le_zero.mp
  apply specMaxUpTo_le
  intro a b hab hb0 _
  omega

theorem slideGo_spec (nums : List Int) (k : Int) (hk : 0 ≤ k) :
    ∀ rest : List Int, ∀ e start : Nat, ∀ zeros : Int, ∀ best : Nat,
      nums.drop e = rest → e ≤ nums.length → start ≤ e →
      zeros = (zerosIn nums start e : Int) → zeros ≤ k →
      (∀ a, a < start → k < (zerosIn nums a e : Int)) →
      best = specMaxUpTo nums k e →
      slideGo nums k rest e start zeros best = specMaxUpTo nums k nums.length := by
  intro rest
  induction rest with
  | nil =>
    intro e start zeros best hdrop hen hse hz hzk hmin hbest
    have hlen : (nums.drop e).length = nums.length - e := List.length_drop e nums
    rw [hdrop] at hlen
    simp at hlen
    have he : e = nums.length := by omega
    show best = specMaxUpTo nums k nums.length
    rw [hbest, he]
  | cons x rest ih =>
    intro e start zeros best hdrop hen hse hz hzk hmin hbest
    obtain ⟨helt, hgetD, hdrop'⟩ := drop_cons_facts nums hdrop
    have hzeros1 : zeros + (if x = 0 then (1:Int) else 0) =
        (zerosIn nums start (e+1) : Int) := by
      have hadd := zerosIn_add nums (a := start) (b := e) (c := e+1) hse (by omega)
      have hsingle := zerosIn_single nums helt
      rw [hgetD] at hsingle
      by_cases hx : x = 0
      · rw [if_pos hx]
        rw [if_pos hx] at hsingle
        omega
      · rw [if_neg hx]
        rw [if_neg hx] at hsingle
        omega
    obtain ⟨start1, zeros2, hshr, hs1, hs2, hz2, hz2k, hmin1⟩ :=
      shrinkGo_spec nums k hk (e+1) (by omega) (e+1-start) start
        (zeros + (if x = 0 then 1 else 0)) rfl (by omega) hzeros1
    have hstep : slideGo nums k (x :: rest) e start zeros best =
        slideGo nums k rest (e+1) start1 zeros2 (max best (e + 1 - start1)) := by
      simp only [slideGo]
      rw [hshr]
    rw [hstep]
    have hminAll : ∀ a, a < start1 → k < (zerosIn nums a (e+1) : Int) := by
      intro a ha
      rcases Nat.lt_or_ge a start with h1 | h1
      · have := hmin a h1
        have hmono := zerosIn_mono_right nums (a := a) (b := e) (c := e+1)
          (by omega) (by omega)
        omega
      · exact hmin1 a h1 ha
    apply ih (e+1) start1 zeros2 _ hdrop' (by omega) hs2 hz2 hz2k hminAll
    rw [hbest]
    apply le_antisymm
    · apply max_le
      · exact specMaxUpTo_mono_e nums k (by omega)
      · exact le_specMaxUpTo nums k (a := start1) (b := e+1) hs2 (le_refl _)
          (by omega)
    · apply specMaxUpTo_le
      intro a b hab hbe hfeas
      rcases Nat.lt_or_ge b (e+1) with hblt | hbge
      · have := le_specMaxUpTo nums k (e := e) hab (by omega) hfeas
        omega
      · have hbeq : b = e+1 := by omega
        have hastart : start1 ≤ a := by
          by_contra hcon
          push_neg at hcon
          have := hminAll a hcon
          rw [← hbeq] at this
          omega
        omega

theorem slidingWindow_eq_spec (nums : List Int) (k : Int) (hk : 0 ≤ k) :
    slidingWindow nums k = specMaxWindow nums k := by
  show slideGo nums k nums 0 0 0 0 = specMaxUpTo nums k nums.length
  apply slideGo_spec nums k hk nums 0 0 0 0 (by simp) (by omega) (le_refl 0)
    (by rw [zerosIn_self]; rfl) hk (fun a ha => absurd ha (Nat.not_lt_zero a))
    (specMaxUpTo_zero nums k).symm

/-! ### Claim theorems -/

/-- C1: for every sequence whose elements are all in {0,1} and every integer
k ≥ 0, longestOnes returns the maximum length L of a contiguous window of the
sequence containing at most k zero-valued elements, and 0 ≤ L ≤ n. -/
theorem claim_C1 (nums : List Int) (k : Int) (hbin : Binary nums) (hk : 0 ≤ k) :
    longestOnes nums k = (specMaxWindow nums k : Int) ∧
    (∀ a b : Nat, a ≤ b → b ≤ nums.length → (zerosIn nums a b : Int) ≤ k →
      (b : Int) - (a : Int) ≤ longestOnes nums k) ∧
    (∃ a b : Nat, a ≤ b ∧ b ≤ nums.length ∧ (zerosIn nums a b : Int) ≤ k ∧
      (b : Int) - (a : Int) = longestOnes nums k) ∧
    0 ≤ longestOnes nums k ∧ longestOnes nums k ≤ (nums.length : Int) := by
  have hmaster := longestOnes_eq_specMaxWindow nums k hbin hk
  refine ⟨hmaster, ?_, ?_, longestOnes_nonneg nums k hk, ?_⟩
  · intro a b hab hbn hfeas
    exact window_le_longestOnes nums hbin hk hab hbn hfeas
  · obtain ⟨a, b, hab, hbn, hfeas, heq⟩ := specMaxUpTo_attained nums k nums.length hk
    have heq' : b - a = specMaxWindow nums k := heq
    exact ⟨a, b, hab, hbn, hfeas, by omega⟩
  · have := specMaxWindow_le_length nums k
    omega

/-- C1 witness: the theorem instantiated at nums = [1,0,1], k = 1. -/
theorem claim_C1_witness :
    (Binary [1,0,1] ∧ (0:Int) ≤ 1) ∧
    (longestOnes [1,0,1] 1 = (specMaxWindow [1,0,1] 1 : Int) ∧
    (∀ a b : Nat, a ≤ b → b ≤ ([1,0,1] : List Int).length →
      (zerosIn [1,0,1] a b : Int) ≤ 1 →
      (b : Int) - (a : Int) ≤ longestOnes [1,0,1] 1) ∧
    (∃ a b : Nat, a ≤ b ∧ b ≤ ([1,0,1] : List Int).length ∧
      (zerosIn [1,0,1] a b : Int) ≤ 1 ∧
      (b : Int) - (a : Int) = longestOnes [1,0,1] 1) ∧
    0 ≤ longestOnes [1,0,1] 1 ∧ longestOnes [1,0,1] 1 ≤ (([1,0,1] : List Int).length : Int)) :=
  ⟨⟨by decide, by decide⟩, claim_C1 [1,0,1] 1 (by decide) (by decide)⟩

/-- C2 counterexample: the claim says the call fails with an InvalidArgument
condition whenever k < 0.  It does not: the code performs no validation, and on
the invalid input nums = [0], k = -1 it returns the ordinary value -1. -/
theorem claim_C2_counterexample : longestOnes [0] (-1) = -1 := by decide

/-- C2 (amended): longestOnes performs no input validation and cannot fail; it
always returns a value.  For k < 0 it still computes a result — on a sequence
with no 1-valued elements it returns min(n, k), a negative number — and on a
sequence with an element outside {0,1} it also returns an ordinary result,
for example 0 on the sequence [2] with k = 0. -/
theorem claim_C2 (n : Nat) (k : Int) (_hk : k < 0) :
    longestOnes (List.replicate n 0) k = min (n : Int) k ∧ longestOnes [2] 0 = 0 := by
  constructor
  · have hno : ∀ x ∈ List.replicate n (0:Int), x ≠ 1 := by
      intro x hx
      rw [List.eq_of_mem_replicate hx]
      norm_num
    have h := longestOnes_no_ones (List.replicate n 0) hno k
    rwa [List.length_replicate] at h
  · decide

/-- C2 witness: the amended theorem instantiated at n = 2, k = -2. -/
theorem claim_C2_witness :
    ((-2 : Int) < 0) ∧
    (longestOnes (List.replicate 2 0) (-2) = min ((2:Nat) : Int) (-2) ∧
      longestOnes [2] 0 = 0) :=
  ⟨by decide, claim_C2 2 (-2) (by decide)⟩

/-- C3: the two concrete scenarios of the spec evaluate as stated. -/
theorem claim_C3 :
    longestOnes [1,1,1,0,0,0,1,1,1,1,0] 2 = 6 ∧
    longestOnes [0,0,1,1,0,0,1,1,1,0,1,1,0,0,0,1,1,1,1] 3 = 10 := by
  constructor
  · decide
  · decide

/-- C4: saturation — when k is at least the total number of zero-valued
elements of a binary sequence, longestOnes returns the sequence length. -/
theorem claim_C4 (nums : List Int) (k : Int) (hbin : Binary nums) (hk : 0 ≤ k)
    (hzeros : (nums.count 0 : Int) ≤ k) :
    longestOnes nums k = (nums.length : Int) := by
  rw [longestOnes_eq_specMaxWindow nums k hbin hk, spec_saturation nums hzeros]

/-- C4 witness: the theorem instantiated at nums = [1,0,1], k = 1. -/
theorem claim_C4_witness :
    (Binary [1,0,1] ∧ (0:Int) ≤ 1 ∧ (([1,0,1] : List Int).count 0 : Int) ≤ 1) ∧
    longestOnes [1,0,1] 1 = (([1,0,1] : List Int).length : Int) :=
  ⟨⟨by decide, by decide, by decide⟩, claim_C4 [1,0,1] 1 (by decide) (by decide) (by decide)⟩

/-- C5: zero budget — for every binary sequence, longestOnes with k = 0 equals
the length of the longest maximal run of 1-valued elements, and equals 0 when
the sequence is empty or contains no 1. -/
theorem claim_C5 (nums : List Int) (hbin : Binary nums) :
    longestOnes nums 0 = (longestMaxRun nums : Int) ∧
    (nums = [] → longestOnes nums 0 = 0) ∧
    ((∀ x ∈ nums, x ≠ 1) → longestOnes nums 0 = 0) := by
  have h1 : longestOnes nums 0 = (specMaxWindow nums 0 : Int) :=
    longestOnes_eq_specMaxWindow nums 0 hbin (le_refl 0)
  have h2 := spec_zero_budget nums hbin
  refine ⟨by rw [h1, h2], ?_, ?_⟩
  · intro hnil
    subst hnil
    decide
  · intro hno
    rw [longestOnes_no_ones nums hno 0]
    omega

/-- C5 witness: the theorem instantiated at nums = [1,1,0,1]. -/
theorem claim_C5_witness :
    Binary [1,1,0,1] ∧
    (longestOnes [1,1,0,1] 0 = (longestMaxRun [1,1,0,1] : Int) ∧
    (([1,1,0,1] : List Int) = [] → longestOnes [1,1,0,1] 0 = 0) ∧
    ((∀ x ∈ ([1,1,0,1] : List Int), x ≠ 1) → longestOnes [1,1,0,1] 0 = 0)) :=
  ⟨by decide, claim_C5 [1,1,0,1] (by decide)⟩

/-- C6: monotonicity in the budget — for every binary sequence and k ≥ 0,
longestOnes at k is at most longestOnes at k + 1. -/
theorem claim_C6 (nums : List Int) (k : Int) (hbin : Binary nums) (hk : 0 ≤ k) :
    longestOnes nums k ≤ longestOnes nums (k+1) := by
  rw [longestOnes_eq_specMaxWindow nums k hbin hk,
      longestOnes_eq_specMaxWindow nums (k+1) hbin (by omega)]
  have := spec_mono_k nums (show k ≤ k+1 by omega)
  omega

/-- C6 witness: the theorem instantiated at nums = [1,0,0,1], k = 0. -/
theorem claim_C6_witness :
    (Binary [1,0,0,1] ∧ (0:Int) ≤ 0) ∧
    longestOnes [1,0,0,1] 0 ≤ longestOnes [1,0,0,1] (0+1) :=
  ⟨⟨by decide, by decide⟩, claim_C6 [1,0,0,1] 0 (by decide) (by decide)⟩

/-- C7: reversal symmetry — longestOnes on the reversed sequence equals
longestOnes on the sequence, for the same k ≥ 0, on binary sequences. -/
theorem claim_C7 (nums : List Int) (k : Int) (hbin : Binary nums) (hk : 0 ≤ k) :
    longestOnes nums.reverse k = longestOnes nums k := by
  have hbinr : Binary nums.reverse := fun x hx => hbin x (List.mem_reverse.mp hx)
  rw [longestOnes_eq_specMaxWindow nums k hbin hk,
      longestOnes_eq_specMaxWindow nums.reverse k hbinr hk, spec_reverse nums k]

/-- C7 witness: the theorem instantiated at nums = [1,1,0], k = 0. -/
theorem claim_C7_witness :
    (Binary [1,1,0] ∧ (0:Int) ≤ 0) ∧
    longestOnes ([1,1,0] : List Int).reverse 0 = longestOnes [1,1,0] 0 :=
  ⟨⟨by decide, by decide⟩, claim_C7 [1,1,0] 0 (by decide) (by decide)⟩

/-- C8: getSegments returns exactly the maximal 1-runs: every returned pair is
a maximal run with start < end ≤ n, every maximal run is returned, consecutive
returned segments are disjoint, ordered, and separated by a zero-valued element
(so all segments are mutually non-overlapping and sorted by start), and the
result is empty when the sequence is empty or contains no 1. -/
theorem claim_C8 (nums : List Int) (hbin : Binary nums) :
    (∀ p ∈ getSegments nums, isMaxRun nums p.1 p.2) ∧
    (∀ s e : Nat, isMaxRun nums s e → (s, e) ∈ getSegments nums) ∧
    List.Chain' (fun q r : Nat × Nat => q.2 < r.1 ∧ nums.getD q.2 0 = 0)
      (getSegments nums) ∧
    (∀ t t' : Nat, t < t' → t' < (getSegments nums).length →
      (segAt (getSegments nums) t).2 < (segAt (getSegments nums) t').1) ∧
    ((∀ x ∈ nums, x ≠ 1) → getSegments nums = []) :=
  ⟨fun _p hp => getSegments_mem_isMaxRun nums hbin hp,
   fun _ _ hrun => isMaxRun_mem_getSegments nums hbin hrun,
   getSegments_chain nums (getSegments nums) 0 (getSegments_SegsFrom nums hbin),
   fun t t' htt' ht' =>
     SegsFrom_E_lt_S nums (getSegments_SegsFrom nums hbin) t t' htt' ht',
   fun hno => getSegmentsGo_no_ones nums 0 0 hno⟩

/-- C8 witness: the theorem instantiated at nums = [0,1,1,0,1]. -/
theorem claim_C8_witness :
    Binary [0,1,1,0,1] ∧
    ((∀ p ∈ getSegments [0,1,1,0,1], isMaxRun [0,1,1,0,1] p.1 p.2) ∧
    (∀ s e : Nat, isMaxRun [0,1,1,0,1] s e → (s, e) ∈ getSegments [0,1,1,0,1]) ∧
    List.Chain' (fun q r : Nat × Nat => q.2 < r.1 ∧ ([0,1,1,0,1] : List Int).getD q.2 0 = 0)
      (getSegments [0,1,1,0,1]) ∧
    (∀ t t' : Nat, t < t' → t' < (getSegments [0,1,1,0,1]).length →
      (segAt (getSegments [0,1,1,0,1]) t).2 < (segAt (getSegments [0,1,1,0,1]) t').1) ∧
    ((∀ x ∈ ([0,1,1,0,1] : List Int), x ≠ 1) → getSegments [0,1,1,0,1] = [])) :=
  ⟨by decide, claim_C8 [0,1,1,0,1] (by decide)⟩

/-- C9: the segment-pairwise nested-loop longestOnes computes the same result
as the linear two-pointer sliding-window algorithm described in spec §4.2, for
every binary sequence and every k ≥ 0. -/
theorem claim_C9 (nums : List Int) (k : Int) (hbin : Binary nums) (hk : 0 ≤ k) :
    longestOnes nums k = (slidingWindow nums k : Int) := by
  rw [longestOnes_eq_specMaxWindow nums k hbin hk, slidingWindow_eq_spec nums k hk]

/-- C9 witness: the theorem instantiated at nums = [0,1,0,1,1], k = 1. -/
theorem claim_C9_witness :
    (Binary [0,1,0,1,1] ∧ (0:Int) ≤ 1) ∧
    longestOnes [0,1,0,1,1] 1 = (slidingWindow [0,1,0,1,1] 1 : Int) :=
  ⟨⟨by decide, by decide⟩, claim_C9 [0,1,0,1,1] 1 (by decide) (by decide)⟩

/-- C10 (implicit): for every sequence with no element equal to 1 — the empty
sequence included, elements need not be binary — and every integer k, negative
values included, longestOnes returns min(n, k); in particular for k < 0 it
returns the negative value k rather than failing. -/
theorem claim_C10 (nums : List Int) (k : Int) (hno : ∀ x ∈ nums, x ≠ 1) :
    longestOnes nums k = min (nums.length : Int) k ∧
    (k < 0 → longestOnes nums k = k) := by
  have h := longestOnes_no_ones nums hno k
  refine ⟨h, fun hk => ?_⟩
  rw [h]
  omega

/-- C10 witness: the theorem instantiated at nums = [0,2], k = -2. -/
theorem claim_C10_witness :
    (∀ x ∈ ([0,2] : List Int), x ≠ 1) ∧
    (longestOnes [0,2] (-2) = min ((([0,2] : List Int).length) : Int) (-2) ∧
      ((-2 : Int) < 0 → longestOnes [0,2] (-2) = -2)) :=
  ⟨by decide, claim_C10 [0,2] (-2) (by decide)⟩

end ConsecutiveOnes
